import Mathlib

/-
Shallow embedding of the micrograd engine (src/micrograd.ipynb, class `Value`).

Modelling choices:
* A `Value` object is a node in an arena: the graph is a `List Value.Node`,
  a node reference is its index (`ℕ`).  Object identity in Python becomes
  index identity here.
* Python floats are idealised as exact rationals (`ℚ`).  The two genuinely
  real-valued operations are abstracted by function parameters:
  `expF : ℚ → ℚ` stands for `math.exp`, and `rpow : ℚ → ℚ → ℚ` stands for
  float `**` at a non-integral exponent (never exercised by any theorem
  below; all exponents appearing in the source are integral).
* The per-node backward closure of the source captures only the operand
  references, the exponent (for `**`) and the forward result (for `tanh`);
  it is therefore represented as a first-order tag (`BackRule`) dispatched
  by `applyRule`, exactly the data the closures capture.
* `Value.__init__` stores `set(_children)`; a Python `set` of objects is
  keyed on identity and drops duplicates, so `_prev` is modelled as the
  duplicate-free list `children.dedup` (iteration order of a small Python
  set is unspecified; the list order is one admissible order, and the
  ordering theorems below do not depend on it).
* Exceptions (`TypeError` from unsupported operand dispatch, the `assert`
  in `__pow__`, `ZeroDivisionError` from `0.0 ** negative`) are modelled
  with `Except PyErr`.
* `build_topo` is general recursion on an arbitrary graph; it is embedded
  with a step-counting fuel parameter (one unit per call), and `backward`
  supplies a fuel that is proved sufficient (`unvisWeight` bookkeeping),
  so the embedding computes exactly what the Python recursion computes.
* The diagnostic `_op` tag of `**` nodes is stored as the plain string
  `"**"`: the source interpolates the exponent into the tag
  (`f"**{other}"`), which is diagnostic text only.
-/

namespace Micrograd

/-- The backward closure attached to a node, as the data it captures:
operand indices, plus the exponent for `**` and the forward result for
`tanh`. -/
inductive BackRule where
  | nop : BackRule
  | addR (i j : ℕ) : BackRule
  | mulR (i j : ℕ) : BackRule
  | powR (i : ℕ) (p : ℚ) : BackRule
  | tanhR (i : ℕ) (t : ℚ) : BackRule
  | expR (i : ℕ) : BackRule
deriving DecidableEq, Repr

/-- One `Value` object: `data`, `grad`, `_prev` (as a duplicate-free index
list), `_op`, and the attached `_backward` closure. -/
structure Node where
  data : ℚ
  grad : ℚ
  prev : List ℕ
  op : String
  rule : BackRule
deriving DecidableEq, Repr

/-- Exceptions the source can raise on the modelled operations. -/
inductive PyErr where
  | typeError : PyErr
  | unsupportedExponentType : PyErr
  | zeroDivisionError : PyErr
deriving DecidableEq, Repr

/-- A Python number: `int` or `float` (floats idealised as rationals). -/
inductive PyNum where
  | int (n : ℤ) : PyNum
  | float (q : ℚ) : PyNum
deriving DecidableEq, Repr

def PyNum.toQ : PyNum → ℚ
  | .int n => (n : ℚ)
  | .float q => q

/-- A Python object in operand position: a `Value` node, a number, or
anything else (a non-numeric, non-`Value` object). -/
inductive PyObj where
  | node (i : ℕ) : PyObj
  | num (c : PyNum) : PyObj
  | other : PyObj
deriving DecidableEq, Repr

def defaultNode : Node := ⟨0, 0, [], "", .nop⟩

/-- Dereference a node index (total via a default; indices out of the
arena never arise from the API). -/
def getNode (g : List Node) (i : ℕ) : Node := g.getD i defaultNode

def dataOf (g : List Node) (i : ℕ) : ℚ := (getNode g i).data
def gradOf (g : List Node) (i : ℕ) : ℚ := (getNode g i).grad
def prevOf (g : List Node) (i : ℕ) : List ℕ := (getNode g i).prev
def opOf (g : List Node) (i : ℕ) : String := (getNode g i).op
def ruleOf (g : List Node) (i : ℕ) : BackRule := (getNode g i).rule

/-- `self.grad += d` -/
def addGrad (g : List Node) (i : ℕ) (d : ℚ) : List Node :=
  g.set i { getNode g i with grad := (getNode g i).grad + d }

/-- `self.grad = v` -/
def setGrad (g : List Node) (i : ℕ) (v : ℚ) : List Node :=
  g.set i { getNode g i with grad := v }

/-- `Value(data, _children, _op)` with an attached backward closure:
appends a fresh node (grad 0, `_prev = set(_children)`) and returns its
index. -/
def mkValue (g : List Node) (data : ℚ) (children : List ℕ) (op : String)
    (rule : BackRule) : List Node × ℕ :=
  (g ++ [⟨data, 0, children.dedup, op, rule⟩], g.length)

/-- `Value(c)`: a leaf node (no children, no-op backward closure). -/
def mkLeaf (g : List Node) (c : ℚ) : List Node × ℕ :=
  mkValue g c [] "" .nop

/-- `Value.__add__` on two `Value` operands. -/
def addVV (g : List Node) (i j : ℕ) : List Node × ℕ :=
  mkValue g (dataOf g i + dataOf g j) [i, j] "+" (.addR i j)

/-- `Value.__mul__` on two `Value` operands. -/
def mulVV (g : List Node) (i j : ℕ) : List Node × ℕ :=
  mkValue g (dataOf g i * dataOf g j) [i, j] "*" (.mulR i j)

/-- `Value.__mul__` with a plain-number right operand: the number is
wrapped as a fresh leaf first (`other = Value(other)`), then multiplied. -/
def mulNumV (g : List Node) (i : ℕ) (c : ℚ) : List Node × ℕ :=
  let p := mkLeaf g c
  mulVV p.1 i p.2

/-- `Value.__add__` with a plain-number right operand (implicit leaf
wrapping). -/
def addNumV (g : List Node) (i : ℕ) (c : ℚ) : List Node × ℕ :=
  let p := mkLeaf g c
  addVV p.1 i p.2

/-- `Value.__add__(self, other)` for an arbitrary `other`: a non-`Value`
is wrapped by `Value(other)`; adding the wrapped payload of a non-number
then raises `TypeError` (`float + str` etc.). -/
def add (g : List Node) (i : ℕ) (other : PyObj) :
    Except PyErr (List Node × ℕ) :=
  match other with
  | .node j => .ok (addVV g i j)
  | .num c => .ok (addNumV g i c.toQ)
  | .other => .error .typeError

/-- `Value.__mul__(self, other)` for an arbitrary `other`. -/
def mul (g : List Node) (i : ℕ) (other : PyObj) :
    Except PyErr (List Node × ℕ) :=
  match other with
  | .node j => .ok (mulVV g i j)
  | .num c => .ok (mulNumV g i c.toQ)
  | .other => .error .typeError

/-- Python `x ** p` on an idealised float base and a rational exponent
value, for an integral exponent: `0.0 ** negative` raises
`ZeroDivisionError`, otherwise the result is the exact integer power.
A non-integral exponent falls outside the rational idealisation and is
represented by the abstract `rpow` parameter (no theorem below exercises
it). -/
def qpow (rpow : ℚ → ℚ → ℚ) (x p : ℚ) : ℚ :=
  if p.den = 1 then x ^ p.num else rpow x p

def pypow (rpow : ℚ → ℚ → ℚ) (x p : ℚ) : Except PyErr ℚ :=
  if x = 0 ∧ p < 0 then .error .zeroDivisionError
  else .ok (qpow rpow x p)

/-- `Value.__pow__(self, other)`: `assert isinstance(other, (int, float))`
fires first (before any forward evaluation and before any node is
created); then the forward power is computed (which can itself raise
`ZeroDivisionError`), and only then is the output node created. -/
def pow (rpow : ℚ → ℚ → ℚ) (g : List Node) (i : ℕ) (other : PyObj) :
    Except PyErr (List Node × ℕ) :=
  match other with
  | .num c =>
      match pypow rpow (dataOf g i) c.toQ with
      | .error e => .error e
      | .ok v => .ok (mkValue g v [i] "**" (.powR i c.toQ))
  | _ => .error .unsupportedExponentType

/-- `Value.__neg__`: `self * -1` (wraps `-1` as a leaf inside `__mul__`). -/
def neg (g : List Node) (i : ℕ) : List Node × ℕ :=
  mulNumV g i (-1)

/-- `Value.__sub__`: `self + (- other)`. -/
def sub (g : List Node) (i : ℕ) (other : PyObj) :
    Except PyErr (List Node × ℕ) :=
  match other with
  | .node j =>
      let p := neg g j
      .ok (addVV p.1 i p.2)
  | .num c => .ok (addNumV g i (-(c.toQ)))
  | .other => .error .typeError

/-- `Value.__truediv__`: `self * other ** -1`; the power node (or the
scalar reciprocal) is evaluated first. -/
def truediv (rpow : ℚ → ℚ → ℚ) (g : List Node) (i : ℕ) (other : PyObj) :
    Except PyErr (List Node × ℕ) :=
  match other with
  | .node j =>
      match pow rpow g j (.num (.int (-1))) with
      | .error e => .error e
      | .ok p => .ok (mulVV p.1 i p.2)
  | .num c =>
      if c.toQ = 0 then .error .zeroDivisionError
      else .ok (mulNumV g i (c.toQ)⁻¹)
  | .other => .error .typeError

/-- `Value.tanh`: `t = (exp(2x) - 1) / (exp(2x) + 1)`; float division by
an exactly-zero denominator would raise (it never does for the genuine
`math.exp`, whose values are positive). -/
def tanh (expF : ℚ → ℚ) (g : List Node) (i : ℕ) :
    Except PyErr (List Node × ℕ) :=
  let x := dataOf g i
  let e := expF (2 * x)
  if e + 1 = 0 then .error .zeroDivisionError
  else .ok (mkValue g ((e - 1) / (e + 1)) [i] "tanh" (.tanhR i ((e - 1) / (e + 1))))

/-- `Value.exp`. -/
def expV (expF : ℚ → ℚ) (g : List Node) (i : ℕ) : List Node × ℕ :=
  mkValue g (expF (dataOf g i)) [i] "exp" (.expR i)

/-- Top-level Python `x + y` dispatch: `Value.__add__` handles a `Value`
left operand; for a number on the left, `float.__add__` returns
`NotImplemented` and, since the class defines no `__radd__`, the
interpreter raises `TypeError`. -/
def pyAdd (g : List Node) (x y : PyObj) : Except PyErr (List Node × PyObj) :=
  match x, y with
  | .node i, y => (add g i y).map (fun p => (p.1, .node p.2))
  | .num _, .node _ => .error .typeError
  | .num c, .num d => .ok (g, .num (.float (c.toQ + d.toQ)))
  | .num _, .other => .error .typeError
  | .other, _ => .error .typeError

/-- Top-level Python `x * y` dispatch: for a number on the left,
`float.__mul__` returns `NotImplemented` and the interpreter falls back
to `Value.__rmul__(self, other)`, which returns `self * other`. -/
def pyMul (g : List Node) (x y : PyObj) : Except PyErr (List Node × PyObj) :=
  match x, y with
  | .node i, y => (mul g i y).map (fun p => (p.1, .node p.2))
  | .num c, .node j => (mul g j (.num c)).map (fun p => (p.1, .node p.2))
  | .num c, .num d => .ok (g, .num (.float (c.toQ * d.toQ)))
  | .num _, .other => .error .typeError
  | .other, _ => .error .typeError

/-- Invoke the backward closure stored at node `k` (`node._backward()`),
reading `out.grad` and the operand data from the current state exactly in
the source's sequential order.  The `**` closure evaluates
`self.data ** (other - 1)`, which can raise. -/
def applyRule (rpow : ℚ → ℚ → ℚ) (g : List Node) (k : ℕ) :
    Except PyErr (List Node) :=
  match ruleOf g k with
  | .nop => .ok g
  | .addR i j =>
      let g1 := addGrad g i (1 * gradOf g k)
      .ok (addGrad g1 j (1 * gradOf g1 k))
  | .mulR i j =>
      let g1 := addGrad g i (dataOf g j * gradOf g k)
      .ok (addGrad g1 j (dataOf g1 i * gradOf g1 k))
  | .powR i p =>
      match pypow rpow (dataOf g i) (p - 1) with
      | .error e => .error e
      | .ok w => .ok (addGrad g i (p * w * gradOf g k))
  | .tanhR i t => .ok (addGrad g i ((1 - t ^ 2) * gradOf g k))
  | .expR i => .ok (addGrad g i (dataOf g k * gradOf g k))

/-- `node._backward()` for every node of the list, in order, stopping at
the first raised exception. -/
def applyAll (rpow : ℚ → ℚ → ℚ) (g : List Node) :
    List ℕ → Except PyErr (List Node)
  | [] => .ok g
  | v :: rest =>
      match applyRule rpow g v with
      | .error e => .error e
      | .ok g1 => applyAll rpow g1 rest

/-- The operand (child) relation: `j` is an operand of `i`. -/
def childR (g : List Node) (i j : ℕ) : Prop := j ∈ prevOf g i

instance (g : List Node) (i j : ℕ) : Decidable (childR g i j) := by
  unfold childR; infer_instance

/-- `j` is reachable from `i` through operand edges (reflexive). -/
def Reach (g : List Node) : ℕ → ℕ → Prop :=
  Relation.ReflTransGen (childR g)

/-- The operand graph has no cycle: no node transitively reaches itself
through at least one edge. -/
def Acyclic (g : List Node) : Prop :=
  ∀ i, ¬ Relation.TransGen (childR g) i i

/-- `build_topo`, embedded with a step-counting fuel (one unit per call).
`vs` is the worklist of the children still to be traversed at the current
level; `vis` is the `visited` set, `topo` the accumulating post-order.
For an unvisited node: mark it visited, recurse into its children, then
append it to `topo` -- exactly the source's recursion. -/
def dfsRun (g : List Node) (fuel : ℕ) (vs vis topo : List ℕ) :
    List ℕ × List ℕ :=
  match fuel with
  | 0 => (vis, topo)
  | f + 1 =>
    match vs with
    | [] => (vis, topo)
    | v :: rest =>
      if v ∈ vis then dfsRun g f rest vis topo
      else
        let p := dfsRun g f (prevOf g v) (v :: vis) topo
        dfsRun g f rest p.1 (p.2 ++ [v])

/-- Weight of the not-yet-visited in-range nodes: enough remaining fuel
to finish the traversal (proved below). -/
def unvisWeight (g : List Node) (vis : List ℕ) : ℕ :=
  ∑ i ∈ (Finset.range g.length).filter (fun i => i ∉ vis),
    (1 + (prevOf g i).length)

/-- A fuel provably sufficient for the whole traversal. -/
def totalFuel (g : List Node) : ℕ := unvisWeight g [] + 2

/-- The post-order list `topo` computed by `build_topo(self)`. -/
def buildTopo (g : List Node) (t : ℕ) : List ℕ :=
  (dfsRun g (totalFuel g) [t] [] []).2

/-- The order in which `backward` invokes the closures: reverse
post-order. -/
def runOrder (g : List Node) (t : ℕ) : List ℕ :=
  (buildTopo g t).reverse

/-- `Value.backward`: build the post-order, seed `self.grad = 1.0`, then
invoke each recorded closure in reverse post-order. -/
def backward (rpow : ℚ → ℚ → ℚ) (g : List Node) (t : ℕ) :
    Except PyErr (List Node) :=
  applyAll rpow (setGrad g t 1) (runOrder g t)

/-- The gradient accumulators a backward closure writes to. -/
def ruleTargets : BackRule → List ℕ
  | .nop => []
  | .addR i j => [i, j]
  | .mulR i j => [i, j]
  | .powR i _ => [i]
  | .tanhR i _ => [i]
  | .expR i => [i]

/-- Well-formedness of an API-built graph: every closure writes only to
the gradients of the node's recorded operands (in the source the closure
captures exactly `self` and `other`, the members of `_prev`). -/
def WF (g : List Node) : Prop :=
  ∀ k, k < g.length → ∀ i ∈ ruleTargets (ruleOf g k), i ∈ prevOf g k

instance (g : List Node) : Decidable (WF g) := by
  unfold WF; infer_instance

/-- Two graphs with the same skeleton: equal length and equal `data`,
`_prev`, `_op` and closure at every index (only gradients may differ). -/
def Skel (g g' : List Node) : Prop :=
  g'.length = g.length ∧
  ∀ i, dataOf g' i = dataOf g i ∧ prevOf g' i = prevOf g i ∧
    opOf g' i = opOf g i ∧ ruleOf g' i = ruleOf g i

/-- Invariant carried through the traversal: every visited-but-unfinished
node (the recursion stack) strictly reaches each pending worklist node;
the finished list is duplicate-free, visited, ordered (no node is
followed by one of its operands) and closed under operands. -/
def DfsInv (g : List Node) (vs vis topo : List ℕ) : Prop :=
  (∀ x ∈ vis, x ∉ topo → ∀ v ∈ vs, Relation.TransGen (childR g) x v) ∧
  topo.Nodup ∧
  (∀ x ∈ topo, x ∈ vis) ∧
  topo.Pairwise (fun a b => b ∉ prevOf g a) ∧
  (∀ x ∈ topo, ∀ c ∈ prevOf g x, c ∈ topo)

/-- What one traversal call guarantees: the visited set grows, the
finished list grows at the end by previously-unvisited nodes, the
recursion stack is unchanged, every worklist node ends up finished, and
the finished list stays duplicate-free, visited, ordered and closed. -/
def DfsPost (g : List Node) (vs vis topo : List ℕ) (r : List ℕ × List ℕ) : Prop :=
  (∀ x ∈ vis, x ∈ r.1) ∧
  (∃ tail, r.2 = topo ++ tail) ∧
  (∀ x ∈ r.2, x ∈ topo ∨ x ∉ vis) ∧
  (∀ x ∈ r.1, x ∉ r.2 → x ∈ vis ∧ x ∉ topo) ∧
  (∀ v ∈ vs, v ∈ r.2) ∧
  r.2.Nodup ∧
  (∀ x ∈ r.2, x ∈ r.1) ∧
  r.2.Pairwise (fun a b => b ∉ prevOf g a) ∧
  (∀ x ∈ r.2, ∀ c ∈ prevOf g x, c ∈ r.2)

/-! ### Spec-side compositions (from the derived-builder table of the
specification, for the refinement claim) -/

/-- Modelled from the spec table: `negate(a)` is
`multiply(a, constant(-1))`. -/
def negate_spec (g : List Node) (i : ℕ) : List Node × ℕ :=
  let p := mkLeaf g (-1)
  mulVV p.1 i p.2

/-- Modelled from the spec table: `subtract(a,b)` is `add(a, negate(b))`. -/
def subtract_spec (g : List Node) (i j : ℕ) : List Node × ℕ :=
  let p := negate_spec g j
  addVV p.1 i p.2

/-- Modelled from the spec table: `divide(a,b)` is
`multiply(a, power(b, -1))`. -/
def divide_spec (rpow : ℚ → ℚ → ℚ) (g : List Node) (i j : ℕ) :
    Except PyErr (List Node × ℕ) :=
  match pow rpow g j (.num (.int (-1))) with
  | .error e => .error e
  | .ok p => .ok (mulVV p.1 i p.2)

/-! ### Concrete fixtures for the witnesses and counterexamples -/

/-- A stand-in for the abstract non-integral-power parameter (never
consulted on the concrete inputs below). -/
def rpow0 : ℚ → ℚ → ℚ := fun _ _ => 0

/-- A stand-in for `math.exp` satisfying `exp 0 = 1` (the only property
the boundary claim uses). -/
def exp1 : ℚ → ℚ := fun _ => 1

/-- `a = Value(3.0)`. -/
def sqA : List Node × ℕ := mkLeaf [] 3

/-- `b = a * a`. -/
def sqB : List Node × ℕ := mulVV sqA.1 sqA.2 sqA.2

/-- `a = Value(2.0)` of the diamond graph. -/
def dmA : List Node × ℕ := mkLeaf [] 2

/-- `Value(3.0)` of the diamond graph. -/
def dmB : List Node × ℕ := mkLeaf dmA.1 3

/-- `p = a * Value(3.0)`. -/
def dmP : List Node × ℕ := mulVV dmB.1 dmA.2 dmB.2

/-- `Value(1.0)` of the diamond graph. -/
def dmC : List Node × ℕ := mkLeaf dmP.1 1

/-- `q = a + Value(1.0)`. -/
def dmQ : List Node × ℕ := addVV dmC.1 dmA.2 dmC.2

/-- `r = p * q`. -/
def dmR : List Node × ℕ := mulVV dmQ.1 dmP.2 dmQ.2

/-- A two-node graph whose operand relation is a cycle (node 1 has
operand 0 and node 0 has operand 1); not constructible through the API,
but exactly the shape the cycle-rejection claim is about. -/
def cyclicG : List Node :=
  [⟨1, 0, [1], "", .nop⟩, ⟨2, 0, [0], "+", .addR 0 0⟩]

/-- Two leaves, the second holding exactly 0. -/
def zeroDivG : List Node := [⟨1, 0, [], "", .nop⟩, ⟨0, 0, [], "", .nop⟩]

/-- One leaf holding 3. -/
def oneLeafG : List Node := [⟨3, 0, [], "", .nop⟩]

/-- One leaf holding exactly 0. -/
def zeroLeafG : List Node := [⟨0, 0, [], "", .nop⟩]

/-- Two leaves holding 6 and 2. -/
def twoLeafG : List Node := [⟨6, 0, [], "", .nop⟩, ⟨2, 0, [], "", .nop⟩]

/-- A freshly created leaf holding 5. -/
def freshLeafG : List Node := [⟨5, 0, [], "", .nop⟩]

/-- The same leaf with a stale gradient 7 left over from a prior pass. -/
def staleLeafG : List Node := [⟨5, 7, [], "", .nop⟩]

/-! ### Basic lemmas about the node store -/

theorem getNode_set_ne {g : List Node} {i j : ℕ} (x : Node) (h : i ≠ j) :
    getNode (g.set j x) i = getNode g i := by
  simp [getNode, List.getD, List.getElem?_set_ne (Ne.symm h)]

theorem getNode_set_self {g : List Node} {j : ℕ} (x : Node) (h : j < g.length) :
    getNode (g.set j x) j = x := by
  simp [getNode, List.getD, h]

theorem getNode_append_lt {g l : List Node} {i : ℕ} (h : i < g.length) :
    getNode (g ++ l) i = getNode g i := by
  simp only [getNode]
  exact List.getD_append _ _ _ _ h

theorem getNode_append_self {g : List Node} (x : Node) :
    getNode (g ++ [x]) g.length = x := by
  simp only [getNode]
  rw [List.getD_append_right _ _ _ _ (Nat.le_refl _)]
  simp

theorem getNode_default {g : List Node} {i : ℕ} (h : g.length ≤ i) :
    getNode g i = defaultNode := List.getD_eq_default _ _ h

theorem length_addGrad (g : List Node) (j : ℕ) (d : ℚ) :
    (addGrad g j d).length = g.length := by
  simp [addGrad]

theorem length_setGrad (g : List Node) (j : ℕ) (v : ℚ) :
    (setGrad g j v).length = g.length := by
  simp [setGrad]

theorem getNode_addGrad_ne {g : List Node} {i j : ℕ} (d : ℚ) (h : i ≠ j) :
    getNode (addGrad g j d) i = getNode g i := getNode_set_ne _ h

theorem getNode_setGrad_ne {g : List Node} {i j : ℕ} (v : ℚ) (h : i ≠ j) :
    getNode (setGrad g j v) i = getNode g i := getNode_set_ne _ h

/-- `addGrad` changes nothing but the grad field, at any index. -/
theorem getNode_addGrad (g : List Node) (j : ℕ) (d : ℚ) (i : ℕ) :
    getNode (addGrad g j d) i =
      if i = j ∧ j < g.length then
        { getNode g i with grad := (getNode g i).grad + d }
      else getNode g i := by
  by_cases hij : i = j
  · subst hij
    by_cases hj : i < g.length
    · simp [hj, addGrad, getNode_set_self]
    · simp [hj, addGrad, List.set_eq_of_length_le (Nat.le_of_not_lt hj)]
  · simp [hij, getNode_addGrad_ne _ hij]

theorem getNode_setGrad (g : List Node) (j : ℕ) (v : ℚ) (i : ℕ) :
    getNode (setGrad g j v) i =
      if i = j ∧ j < g.length then { getNode g i with grad := v }
      else getNode g i := by
  by_cases hij : i = j
  · subst hij
    by_cases hj : i < g.length
    · simp [hj, setGrad, getNode_set_self]
    · simp [hj, setGrad, List.set_eq_of_length_le (Nat.le_of_not_lt hj)]
  · simp [hij, getNode_setGrad_ne _ hij]

theorem dataOf_addGrad (g : List Node) (j : ℕ) (d : ℚ) (i : ℕ) :
    dataOf (addGrad g j d) i = dataOf g i := by
  simp only [dataOf, getNode_addGrad]
  split <;> rfl

theorem prevOf_addGrad (g : List Node) (j : ℕ) (d : ℚ) (i : ℕ) :
    prevOf (addGrad g j d) i = prevOf g i := by
  simp only [prevOf, getNode_addGrad]
  split <;> rfl

theorem opOf_addGrad (g : List Node) (j : ℕ) (d : ℚ) (i : ℕ) :
    opOf (addGrad g j d) i = opOf g i := by
  simp only [opOf, getNode_addGrad]
  split <;> rfl

theorem ruleOf_addGrad (g : List Node) (j : ℕ) (d : ℚ) (i : ℕ) :
    ruleOf (addGrad g j d) i = ruleOf g i := by
  simp only [ruleOf, getNode_addGrad]
  split <;> rfl

theorem dataOf_setGrad (g : List Node) (j : ℕ) (v : ℚ) (i : ℕ) :
    dataOf (setGrad g j v) i = dataOf g i := by
  simp only [dataOf, getNode_setGrad]
  split <;> rfl

theorem prevOf_setGrad (g : List Node) (j : ℕ) (v : ℚ) (i : ℕ) :
    prevOf (setGrad g j v) i = prevOf g i := by
  simp only [prevOf, getNode_setGrad]
  split <;> rfl

theorem opOf_setGrad (g : List Node) (j : ℕ) (v : ℚ) (i : ℕ) :
    opOf (setGrad g j v) i = opOf g i := by
  simp only [opOf, getNode_setGrad]
  split <;> rfl

theorem ruleOf_setGrad (g : List Node) (j : ℕ) (v : ℚ) (i : ℕ) :
    ruleOf (setGrad g j v) i = ruleOf g i := by
  simp only [ruleOf, getNode_setGrad]
  split <;> rfl

theorem gradOf_addGrad_ne {g : List Node} {i j : ℕ} (d : ℚ) (h : i ≠ j) :
    gradOf (addGrad g j d) i = gradOf g i := by
  simp [gradOf, getNode_addGrad_ne _ h]

theorem gradOf_addGrad_self {g : List Node} {j : ℕ} (d : ℚ) (h : j < g.length) :
    gradOf (addGrad g j d) j = gradOf g j + d := by
  simp [gradOf, getNode_addGrad, h]

theorem gradOf_setGrad_self {g : List Node} {j : ℕ} (v : ℚ) (h : j < g.length) :
    gradOf (setGrad g j v) j = v := by
  simp [gradOf, getNode_setGrad, h]

theorem gradOf_setGrad_ne {g : List Node} {i j : ℕ} (v : ℚ) (h : i ≠ j) :
    gradOf (setGrad g j v) i = gradOf g i := by
  simp [gradOf, getNode_setGrad_ne _ h]

theorem Skel.refl (g : List Node) : Skel g g := ⟨rfl, fun _ => ⟨rfl, rfl, rfl, rfl⟩⟩

theorem Skel.trans {g1 g2 g3 : List Node} (h12 : Skel g1 g2) (h23 : Skel g2 g3) :
    Skel g1 g3 := by
  obtain ⟨hl12, hf12⟩ := h12
  obtain ⟨hl23, hf23⟩ := h23
  refine ⟨hl23.trans hl12, fun i => ?_⟩
  obtain ⟨a1, b1, c1, d1⟩ := hf12 i
  obtain ⟨a2, b2, c2, d2⟩ := hf23 i
  exact ⟨a2.trans a1, b2.trans b1, c2.trans c1, d2.trans d1⟩

theorem skel_addGrad (g : List Node) (j : ℕ) (d : ℚ) : Skel g (addGrad g j d) :=
  ⟨length_addGrad g j d, fun i =>
    ⟨dataOf_addGrad g j d i, prevOf_addGrad g j d i, opOf_addGrad g j d i,
      ruleOf_addGrad g j d i⟩⟩

theorem skel_setGrad (g : List Node) (j : ℕ) (v : ℚ) : Skel g (setGrad g j v) :=
  ⟨length_setGrad g j v, fun i =>
    ⟨dataOf_setGrad g j v i, prevOf_setGrad g j v i, opOf_setGrad g j v i,
      ruleOf_setGrad g j v i⟩⟩

theorem applyRule_skel {rpow : ℚ → ℚ → ℚ} {g : List Node} {k : ℕ} {g' : List Node}
    (h : applyRule rpow g k = .ok g') : Skel g g' := by
  unfold applyRule at h
  rcases hr : ruleOf g k with _ | ⟨i, j⟩ | ⟨i, j⟩ | ⟨i, p⟩ | ⟨i, t⟩ | i <;>
    simp only [hr] at h
  · cases h
    exact Skel.refl g
  · cases h
    exact (skel_addGrad _ _ _).trans (skel_addGrad _ _ _)
  · cases h
    exact (skel_addGrad _ _ _).trans (skel_addGrad _ _ _)
  · rcases hw : pypow rpow (dataOf g i) (p - 1) with e | w <;>
      simp only [hw] at h
    · cases h
    · cases h
      exact skel_addGrad _ _ _
  · cases h
    exact skel_addGrad _ _ _
  · cases h
    exact skel_addGrad _ _ _

theorem applyAll_skel {rpow : ℚ → ℚ → ℚ} :
    ∀ {l : List ℕ} {g g' : List Node}, applyAll rpow g l = .ok g' → Skel g g'
  | [], g, g', h => by
      obtain rfl : g = g' := by simpa [applyAll] using h
      exact Skel.refl g
  | v :: rest, g, g', h => by
      unfold applyAll at h
      rcases h1 : applyRule rpow g v with e | g1 <;> rw [h1] at h
      · cases h
      · exact (applyRule_skel h1).trans (applyAll_skel h)

/-- A backward closure only writes to the gradients listed in
`ruleTargets`. -/
theorem applyRule_grad_of_not_target {rpow : ℚ → ℚ → ℚ} {g : List Node} {k : ℕ}
    {g' : List Node} {i : ℕ} (h : applyRule rpow g k = .ok g')
    (hi : i ∉ ruleTargets (ruleOf g k)) : gradOf g' i = gradOf g i := by
  unfold applyRule at h
  rcases hr : ruleOf g k with _ | ⟨a, b⟩ | ⟨a, b⟩ | ⟨a, p⟩ | ⟨a, t⟩ | a <;>
    simp only [hr] at h <;> rw [hr] at hi <;> simp [ruleTargets] at hi
  · cases h
    rfl
  · cases h
    rw [gradOf_addGrad_ne _ hi.2, gradOf_addGrad_ne _ hi.1]
  · cases h
    rw [gradOf_addGrad_ne _ hi.2, gradOf_addGrad_ne _ hi.1]
  · rcases hw : pypow rpow (dataOf g a) (p - 1) with e | w <;>
      simp only [hw] at h
    · cases h
    · cases h
      rw [gradOf_addGrad_ne _ hi]
  · cases h
    rw [gradOf_addGrad_ne _ hi]
  · cases h
    rw [gradOf_addGrad_ne _ hi]

/-- Running the closures of a list of nodes leaves every gradient alone
that is not a target of one of those closures. -/
theorem applyAll_grad_of_not_target {rpow : ℚ → ℚ → ℚ} {i : ℕ} :
    ∀ {l : List ℕ} {g g' : List Node}, applyAll rpow g l = .ok g' →
      (∀ v ∈ l, i ∉ ruleTargets (ruleOf g v)) → gradOf g' i = gradOf g i
  | [], g, g', h, _ => by
      obtain rfl : g = g' := by simpa [applyAll] using h
      rfl
  | v :: rest, g, g', h, hv => by
      unfold applyAll at h
      rcases h1 : applyRule rpow g v with e | g1 <;> rw [h1] at h
      · cases h
      · have hskel := applyRule_skel h1
        have hrest : ∀ u ∈ rest, i ∉ ruleTargets (ruleOf g1 u) := by
          intro u hu
          rw [(hskel.2 u).2.2.2]
          exact hv u (List.mem_cons_of_mem _ hu)
        rw [applyAll_grad_of_not_target h hrest,
          applyRule_grad_of_not_target h1 (hv v (List.mem_cons_self v rest))]

/-! ### The depth-first post-order traversal -/

theorem dfsRun_zero (g : List Node) (vs vis topo : List ℕ) :
    dfsRun g 0 vs vis topo = (vis, topo) := rfl

theorem dfsRun_nil (g : List Node) (fuel : ℕ) (vis topo : List ℕ) :
    dfsRun g fuel [] vis topo = (vis, topo) := by
  cases fuel <;> rfl

theorem dfsRun_cons (g : List Node) (f : ℕ) (v : ℕ) (rest vis topo : List ℕ) :
    dfsRun g (f + 1) (v :: rest) vis topo =
      if v ∈ vis then dfsRun g f rest vis topo
      else
        dfsRun g f rest (dfsRun g f (prevOf g v) (v :: vis) topo).1
          ((dfsRun g f (prevOf g v) (v :: vis) topo).2 ++ [v]) := rfl

theorem prevOf_of_le {g : List Node} {v : ℕ} (h : g.length ≤ v) :
    prevOf g v = [] := by
  simp [prevOf, getNode_default h, defaultNode]

theorem unvisWeight_le_of_subset {g : List Node} {vis vis' : List ℕ}
    (h : ∀ x ∈ vis, x ∈ vis') : unvisWeight g vis' ≤ unvisWeight g vis := by
  apply Finset.sum_le_sum_of_subset
  intro i hi
  simp only [Finset.mem_filter, Finset.mem_range] at hi ⊢
  exact ⟨hi.1, fun hmem => hi.2 (h i hmem)⟩

theorem unvisWeight_cons_of_lt {g : List Node} {v : ℕ} {vis : List ℕ}
    (hv : v < g.length) (hnv : v ∉ vis) :
    unvisWeight g (v :: vis) + (1 + (prevOf g v).length) = unvisWeight g vis := by
  have hset : (Finset.range g.length).filter (fun i => i ∉ v :: vis) =
      ((Finset.range g.length).filter (fun i => i ∉ vis)).erase v := by
    ext i
    simp only [Finset.mem_filter, Finset.mem_range, Finset.mem_erase,
      List.mem_cons]
    tauto
  have hmem : v ∈ (Finset.range g.length).filter (fun i => i ∉ vis) := by
    simp [hv, hnv]
  unfold unvisWeight
  rw [hset]
  exact Finset.sum_erase_add _ _ hmem

theorem unvisWeight_cons_of_le {g : List Node} {v : ℕ} {vis : List ℕ}
    (hv : g.length ≤ v) :
    unvisWeight g (v :: vis) = unvisWeight g vis := by
  unfold unvisWeight
  apply Finset.sum_congr _ (fun _ _ => rfl)
  ext i
  simp only [Finset.mem_filter, Finset.mem_range, List.mem_cons]
  constructor
  · exact fun ⟨h1, h2⟩ => ⟨h1, fun hm => h2 (Or.inr hm)⟩
  · rintro ⟨h1, h2⟩
    refine ⟨h1, ?_⟩
    rintro (rfl | hm)
    · omega
    · exact h2 hm

/-- Every node the traversal appends is reachable from the worklist
(no acyclicity needed). -/
theorem dfsRun_sound (g : List Node) :
    ∀ fuel vs vis topo, ∀ x ∈ (dfsRun g fuel vs vis topo).2,
      x ∈ topo ∨ ∃ v ∈ vs, Reach g v x := by
  intro fuel
  induction fuel with
  | zero =>
      intro vs vis topo x hx
      rw [dfsRun_zero] at hx
      exact Or.inl hx
  | succ f ih =>
      intro vs vis topo x hx
      cases vs with
      | nil =>
          rw [dfsRun_nil] at hx
          exact Or.inl hx
      | cons v rest =>
          rw [dfsRun_cons] at hx
          by_cases hv : v ∈ vis
          · rw [if_pos hv] at hx
            rcases ih rest vis topo x hx with h | ⟨u, hu, hr⟩
            · exact Or.inl h
            · exact Or.inr ⟨u, List.mem_cons_of_mem _ hu, hr⟩
          · rw [if_neg hv] at hx
            rcases ih rest _ _ x hx with h | ⟨u, hu, hr⟩
            · rcases List.mem_append.mp h with h2 | h2
              · rcases ih (prevOf g v) (v :: vis) topo x h2 with h3 | ⟨c, hc, hr⟩
                · exact Or.inl h3
                · exact Or.inr ⟨v, List.mem_cons_self _ _,
                    Relation.ReflTransGen.head hc hr⟩
              · obtain rfl : x = v := by simpa using h2
                exact Or.inr ⟨x, List.mem_cons_self _ _, Relation.ReflTransGen.refl⟩
            · exact Or.inr ⟨u, List.mem_cons_of_mem _ hu, hr⟩

theorem dfsRun_main {g : List Node} (hacyc : Acyclic g) :
    ∀ fuel vs vis topo, unvisWeight g vis + vs.length < fuel →
      DfsInv g vs vis topo →
      DfsPost g vs vis topo (dfsRun g fuel vs vis topo) := by
  intro fuel
  induction fuel with
  | zero =>
      intro vs vis topo hfuel _
      omega
  | succ f ih =>
      intro vs vis topo hfuel hinv
      obtain ⟨hgray, hnd, hsubv, hpw, hcl⟩ := hinv
      cases vs with
      | nil =>
          rw [dfsRun_nil]
          exact ⟨fun x hx => hx, ⟨[], by simp⟩, fun x hx => Or.inl hx,
            fun x hx hnx => ⟨hx, hnx⟩, by simp, hnd, hsubv, hpw, hcl⟩
      | cons v rest =>
          rw [dfsRun_cons]
          by_cases hv : v ∈ vis
          · rw [if_pos hv]
            have hfuel' : unvisWeight g vis + rest.length < f := by
              simp only [List.length_cons] at hfuel
              omega
            have hinv' : DfsInv g rest vis topo :=
              ⟨fun x hx hnx u hu => hgray x hx hnx u (List.mem_cons_of_mem _ hu),
                hnd, hsubv, hpw, hcl⟩
            obtain ⟨r1, r2, r3, r4, r5, r6, r7, r8, r9⟩ := ih rest vis topo hfuel' hinv'
            refine ⟨r1, r2, r3, r4, ?_, r6, r7, r8, r9⟩
            intro u hu
            rcases List.mem_cons.mp hu with rfl | hu
            · by_cases hvt : u ∈ topo
              · obtain ⟨tail, htail⟩ := r2
                rw [htail]
                exact List.mem_append_left _ hvt
              · exact absurd (hgray u hv hvt u (List.mem_cons_self _ _)) (hacyc u)
            · exact r5 u hu
          · rw [if_neg hv]
            -- the inner recursive call on the children of `v`
            have hq : DfsPost g (prevOf g v) (v :: vis) topo
                (dfsRun g f (prevOf g v) (v :: vis) topo) := by
              by_cases hrange : v < g.length
              · have hw := unvisWeight_cons_of_lt hrange hv
                have hfuel' :
                    unvisWeight g (v :: vis) + (prevOf g v).length < f := by
                  simp only [List.length_cons] at hfuel
                  omega
                apply ih _ _ _ hfuel'
                refine ⟨?_, hnd, fun x hx => List.mem_cons_of_mem _ (hsubv x hx),
                  hpw, hcl⟩
                intro x hx hnx c hc
                rcases List.mem_cons.mp hx with rfl | hx
                · exact Relation.TransGen.single hc
                · exact Relation.TransGen.tail
                    (hgray x hx hnx v (List.mem_cons_self _ _)) hc
              · rw [prevOf_of_le (Nat.le_of_not_lt hrange), dfsRun_nil]
                exact ⟨fun x hx => hx, ⟨[], by simp⟩, fun x hx => Or.inl hx,
                  fun x hx hnx => ⟨hx, hnx⟩, by simp, hnd,
                  fun x hx => List.mem_cons_of_mem _ (hsubv x hx), hpw, hcl⟩
            obtain ⟨q1, q2, q3, q4, q5, q6, q7, q8, q9⟩ := hq
            set p := dfsRun g f (prevOf g v) (v :: vis) topo with hp
            have hvp2 : v ∉ p.2 := by
              intro hmem
              rcases q3 v hmem with h | h
              · exact hv (hsubv v h)
              · exact h (List.mem_cons_self _ _)
            have hvp1 : v ∈ p.1 := q1 v (List.mem_cons_self _ _)
            -- invariant for the continuation on `rest`
            have hfuel'' : unvisWeight g p.1 + rest.length < f := by
              have hsub1 : unvisWeight g p.1 ≤ unvisWeight g vis := by
                apply unvisWeight_le_of_subset
                intro x hx
                exact q1 x (List.mem_cons_of_mem _ hx)
              simp only [List.length_cons] at hfuel
              omega
            have hinv'' : DfsInv g rest p.1 (p.2 ++ [v]) := by
              refine ⟨?_, ?_, ?_, ?_, ?_⟩
              · intro x hx hnx u hu
                have hxp2 : x ∉ p.2 := fun hm => hnx (List.mem_append_left _ hm)
                have hxv : x ≠ v := fun hxv => hnx (by simp [hxv])
                obtain ⟨hxvis, hxtopo⟩ := q4 x hx hxp2
                rcases List.mem_cons.mp hxvis with h | h
                · exact absurd h hxv
                · exact hgray x h hxtopo u (List.mem_cons_of_mem _ hu)
              · rw [List.nodup_append]
                refine ⟨q6, by simp, ?_⟩
                intro a ha hb
                obtain rfl : a = v := by simpa using hb
                exact hvp2 ha
              · intro x hx
                rcases List.mem_append.mp hx with h | h
                · exact q7 x h
                · obtain rfl : x = v := by simpa using h
                  exact hvp1
              · rw [List.pairwise_append]
                refine ⟨q8, List.pairwise_singleton _ _, ?_⟩
                intro a ha b hb
                obtain rfl : b = v := by simpa using hb
                intro hmem
                exact hvp2 (q9 a ha b hmem)
              · intro x hx c hc
                rcases List.mem_append.mp hx with h | h
                · exact List.mem_append_left _ (q9 x h c hc)
                · obtain rfl : x = v := by simpa using h
                  exact List.mem_append_left _ (q5 c hc)
            obtain ⟨r1, r2, r3, r4, r5, r6, r7, r8, r9⟩ :=
              ih rest p.1 (p.2 ++ [v]) hfuel'' hinv''
            set r := dfsRun g f rest p.1 (p.2 ++ [v]) with hr
            refine ⟨?_, ?_, ?_, ?_, ?_, r6, r7, r8, r9⟩
            · intro x hx
              exact r1 x (q1 x (List.mem_cons_of_mem _ hx))
            · obtain ⟨tail, htail⟩ := q2
              obtain ⟨tail', htail'⟩ := r2
              exact ⟨tail ++ [v] ++ tail', by
                rw [htail', htail]
                simp⟩
            · intro x hx
              rcases r3 x hx with h | h
              · rcases List.mem_append.mp h with h2 | h2
                · rcases q3 x h2 with h3 | h3
                  · exact Or.inl h3
                  · exact Or.inr (fun hm => h3 (List.mem_cons_of_mem _ hm))
                · obtain rfl : x = v := by simpa using h2
                  exact Or.inr hv
              · exact Or.inr (fun hm => h (q1 x (List.mem_cons_of_mem _ hm)))
            · intro x hx hnx
              obtain ⟨hxp1, hxtopo2⟩ := r4 x hx hnx
              have hxp2 : x ∉ p.2 := fun hm => hxtopo2 (List.mem_append_left _ hm)
              have hxv : x ≠ v := fun h => hxtopo2 (by simp [h])
              obtain ⟨hxvis, hxtopo⟩ := q4 x hxp1 hxp2
              rcases List.mem_cons.mp hxvis with h | h
              · exact absurd h hxv
              · exact ⟨h, hxtopo⟩
            · intro u hu
              rcases List.mem_cons.mp hu with rfl | hu
              · obtain ⟨tail', htail'⟩ := r2
                rw [htail']
                exact List.mem_append_left _ (List.mem_append_right _ (by simp))
              · exact r5 u hu

theorem buildTopo_post {g : List Node} (hacyc : Acyclic g) (t : ℕ) :
    DfsPost g [t] [] [] (dfsRun g (totalFuel g) [t] [] []) := by
  apply dfsRun_main hacyc
  · simp only [totalFuel, List.length_cons, List.length_nil]
    omega
  · exact ⟨by simp, List.nodup_nil, by simp, List.Pairwise.nil, by simp⟩

/-- A list containing `t` and closed under operands contains everything
reachable from `t`. -/
theorem mem_of_reach {g : List Node} {L : List ℕ} {t : ℕ}
    (hclosed : ∀ x ∈ L, ∀ c ∈ prevOf g x, c ∈ L) (ht : t ∈ L) :
    ∀ {x}, Reach g t x → x ∈ L := by
  intro x hx
  induction hx with
  | refl => exact ht
  | tail _ hstep ih => exact hclosed _ ih _ hstep

theorem buildTopo_sound {g : List Node} {t x : ℕ} (hx : x ∈ buildTopo g t) :
    Reach g t x := by
  rcases dfsRun_sound g (totalFuel g) [t] [] [] x hx with h | ⟨v, hv, hr⟩
  · simp at h
  · obtain rfl : v = t := by simpa using hv
    exact hr

theorem buildTopo_nodup {g : List Node} (hacyc : Acyclic g) (t : ℕ) :
    (buildTopo g t).Nodup := by
  obtain ⟨_, _, _, _, _, p6, _, _, _⟩ := buildTopo_post hacyc t
  exact p6

theorem buildTopo_mem_iff {g : List Node} (hacyc : Acyclic g) (t : ℕ) (x : ℕ) :
    x ∈ buildTopo g t ↔ Reach g t x := by
  constructor
  · exact buildTopo_sound
  · obtain ⟨_, _, _, _, p5, _, _, _, p9⟩ := buildTopo_post hacyc t
    exact mem_of_reach p9 (p5 t (List.mem_cons_self _ _))

theorem buildTopo_pairwise {g : List Node} (hacyc : Acyclic g) (t : ℕ) :
    (buildTopo g t).Pairwise (fun a b => b ∉ prevOf g a) := by
  obtain ⟨_, _, _, _, _, _, _, p8, _⟩ := buildTopo_post hacyc t
  exact p8

/-- A graph whose operand indices always decrease (as every graph built
through the API does) is acyclic. -/
theorem acyclic_of_ranked {g : List Node}
    (h : ∀ i, i < g.length → ∀ c ∈ prevOf g i, c < i) : Acyclic g := by
  have hstep : ∀ a b, childR g a b → b < a := by
    intro a b hc
    by_cases ha : a < g.length
    · exact h a ha b hc
    · rw [childR, prevOf_of_le (Nat.le_of_not_lt ha)] at hc
      simp at hc
  have hlt : ∀ a b, Relation.TransGen (childR g) a b → b < a := by
    intro a b hab
    induction hab with
    | single hstep' => exact hstep _ _ hstep'
    | tail _ hstep' ih => exact lt_trans (hstep _ _ hstep') ih
  intro i hi
  exact lt_irrefl i (hlt i i hi)

/-! ### Builder and reachability helper lemmas -/

theorem length_mkValue (g : List Node) (d : ℚ) (ch : List ℕ) (op : String)
    (r : BackRule) : (mkValue g d ch op r).1.length = g.length + 1 := by
  simp [mkValue]

theorem dataOf_mkValue_self (g : List Node) (d : ℚ) (ch : List ℕ) (op : String)
    (r : BackRule) : dataOf (mkValue g d ch op r).1 (mkValue g d ch op r).2 = d := by
  simp only [mkValue, dataOf]
  rw [getNode_append_self]

theorem ruleOf_mkValue_self (g : List Node) (d : ℚ) (ch : List ℕ) (op : String)
    (r : BackRule) : ruleOf (mkValue g d ch op r).1 (mkValue g d ch op r).2 = r := by
  simp only [mkValue, ruleOf]
  rw [getNode_append_self]

theorem dataOf_mkValue_lt {g : List Node} {i : ℕ} (d : ℚ) (ch : List ℕ)
    (op : String) (r : BackRule) (h : i < g.length) :
    dataOf (mkValue g d ch op r).1 i = dataOf g i := by
  simp only [mkValue, dataOf]
  rw [getNode_append_lt h]

theorem qpow_intCast (rpow : ℚ → ℚ → ℚ) (x : ℚ) (n : ℤ) :
    qpow rpow x ((n : ℤ) : ℚ) = x ^ n := by
  simp [qpow, Rat.den_intCast, Rat.num_intCast]

/-- From a node with no operands, nothing but the node itself is
reachable. -/
theorem reach_leaf_eq {g : List Node} {t x : ℕ} (h : prevOf g t = [])
    (hr : Reach g t x) : x = t := by
  rcases Relation.ReflTransGen.cases_head hr with heq | ⟨c, hc, _⟩
  · exact heq.symm
  · rw [childR, h] at hc
    simp at hc

/-! ### The claims -/

/-- C1: Gradient accumulation on shared nodes is additive, never
overwritten: for `a = create_leaf(3.0)` and `b = multiply(a, a)`,
`backward(b)` yields `a.gradient == 6.0`; and for the diamond graph
`a = create_leaf(2.0)`, `p = multiply(a, create_leaf(3.0))`,
`q = add(a, create_leaf(1.0))`, `r = multiply(p, q)`, `backward(r)`
yields `a.gradient == 15.0`. -/
theorem C1_accumulation_on_sharing :
    (backward rpow0 sqB.1 sqB.2).map (fun g => gradOf g sqA.2) = .ok 6 ∧
    (backward rpow0 dmR.1 dmR.2).map (fun g => gradOf g dmA.2) = .ok 15 := by
  constructor <;>
    norm_num [backward, runOrder, buildTopo, totalFuel, unvisWeight, dfsRun,
      applyAll, applyRule, setGrad, addGrad, getNode, gradOf, dataOf, prevOf,
      ruleOf, opOf, mkValue, mkLeaf, mulVV, addVV, sqB, sqA, dmR, dmQ, dmC,
      dmP, dmB, dmA, rpow0, Except.map]

/-- C3 counterexample: `cyclicG` has a genuine operand cycle, yet
`backward` on it does not fail with any condition: it returns
successfully and has mutated a gradient, so the claimed `CyclicGraph`
rejection (and the fail-before-mutating guarantee) does not hold. -/
theorem C3_counterexample :
    Relation.TransGen (childR cyclicG) 1 1 ∧
    ∃ g', backward rpow0 cyclicG 1 = .ok g' ∧ gradOf g' 0 ≠ gradOf cyclicG 0 := by
  have h10 : childR cyclicG 1 0 := by decide
  have h01 : childR cyclicG 0 1 := by decide
  refine ⟨Relation.TransGen.head h10 (Relation.TransGen.single h01),
    ⟨[⟨1, 2, [1], "", .nop⟩, ⟨2, 1, [0], "+", .addR 0 0⟩], ?_, ?_⟩⟩
  · norm_num [backward, runOrder, buildTopo, totalFuel, unvisWeight, dfsRun,
      applyAll, applyRule, setGrad, addGrad, getNode, gradOf, dataOf, prevOf,
      ruleOf, opOf, cyclicG, rpow0]
  · norm_num [gradOf, getNode, cyclicG]

/-- C3 amended: the source has no cycle detection at all.  On a cyclic
operand graph `backward` does not raise a `CyclicGraph` condition and
does not loop (the `visited` set cuts the recursion): it terminates
normally, seeds the terminal gradient to 1.0 and runs the recorded
closures, mutating gradients. -/
theorem C3_amended_no_cycle_detection :
    backward rpow0 cyclicG 1 =
      .ok [⟨1, 2, [1], "", .nop⟩, ⟨2, 1, [0], "+", .addR 0 0⟩] := by
  norm_num [backward, runOrder, buildTopo, totalFuel, unvisWeight, dfsRun,
    applyAll, applyRule, setGrad, addGrad, getNode, gradOf, dataOf, prevOf,
    ruleOf, opOf, cyclicG, rpow0]

/-- C2: for every acyclic graph, `backward` on a terminal node invokes
the recorded closures along `runOrder g t` (one `applyRule` per list
entry, in order): that schedule lists each node reachable from the
terminal exactly once (`Nodup` + the membership equivalence, keyed on the
node index, i.e. on identity, not on any stored value) and every node
appears strictly before all of its operands (reverse post-order of the
depth-first traversal). -/
theorem C2_backward_order {g : List Node} (t : ℕ) (hacyc : Acyclic g) :
    (∀ rpow, backward rpow g t = applyAll rpow (setGrad g t 1) (runOrder g t)) ∧
    (runOrder g t).Nodup ∧
    (∀ x, x ∈ runOrder g t ↔ Reach g t x) ∧
    (runOrder g t).Pairwise (fun a b => a ∉ prevOf g b) := by
  refine ⟨fun _ => rfl, ?_, ?_, ?_⟩
  · rw [runOrder, List.nodup_reverse]
    exact buildTopo_nodup hacyc t
  · intro x
    rw [runOrder, List.mem_reverse]
    exact buildTopo_mem_iff hacyc t x
  · rw [runOrder, List.pairwise_reverse]
    exact buildTopo_pairwise hacyc t

/-- C2 witness: the diamond graph is acyclic; its backward schedule is
duplicate-free and contains the shared leaf `a` (node 0). -/
theorem C2_backward_order_witness :
    (runOrder dmR.1 dmR.2).Nodup ∧ (0 ∈ runOrder dmR.1 dmR.2 ↔ Reach dmR.1 dmR.2 0) := by
  have h := C2_backward_order dmR.2 (acyclic_of_ranked (g := dmR.1) (by decide))
  exact ⟨h.2.1, h.2.2.1 0⟩

/-- C4 counterexample: `1.0 + v` with the scalar on the left raises
`TypeError` -- `float.__add__` returns `NotImplemented` and the class
defines no `__radd__` -- so scalar/node addition does not succeed in
either operand position. -/
theorem C4_counterexample :
    pyAdd oneLeafG (.num (.float 1)) (.node 0) = .error .typeError := rfl

/-- C4 amended: a plain scalar combines with a node by multiplication in
either operand position (`__rmul__` handles the commuted case) and by
addition with the scalar on the right, wrapping the scalar as an
implicit leaf, with forward values `c * v.value`, `v.value * c` and
`c + v.value`; but `c + v` with the scalar on the left raises
`TypeError`, because no `__radd__` is defined. -/
theorem C4_amended {g : List Node} {i : ℕ} (hi : i < g.length) (c : PyNum) :
    (∃ p : List Node × ℕ, pyMul g (.num c) (.node i) = .ok (p.1, .node p.2) ∧
       dataOf p.1 p.2 = c.toQ * dataOf g i) ∧
    (∃ p : List Node × ℕ, pyMul g (.node i) (.num c) = .ok (p.1, .node p.2) ∧
       dataOf p.1 p.2 = dataOf g i * c.toQ) ∧
    (∃ p : List Node × ℕ, pyAdd g (.node i) (.num c) = .ok (p.1, .node p.2) ∧
       dataOf p.1 p.2 = c.toQ + dataOf g i) ∧
    pyAdd g (.num c) (.node i) = .error .typeError := by
  have hmulval : dataOf (mulNumV g i c.toQ).1 (mulNumV g i c.toQ).2 =
      dataOf g i * c.toQ := by
    simp only [mulNumV, mulVV, mkLeaf]
    rw [dataOf_mkValue_self, dataOf_mkValue_lt _ _ _ _ hi, dataOf_mkValue_self]
  have haddval : dataOf (addNumV g i c.toQ).1 (addNumV g i c.toQ).2 =
      dataOf g i + c.toQ := by
    simp only [addNumV, addVV, mkLeaf]
    rw [dataOf_mkValue_self, dataOf_mkValue_lt _ _ _ _ hi, dataOf_mkValue_self]
  refine ⟨⟨mulNumV g i c.toQ, rfl, ?_⟩, ⟨mulNumV g i c.toQ, rfl, hmulval⟩,
    ⟨addNumV g i c.toQ, rfl, ?_⟩, rfl⟩
  · rw [hmulval, mul_comm]
  · rw [haddval, add_comm]

/-- C4 witness: concrete instance on a one-leaf graph with scalar 2:
`2 * v` succeeds with the scalar on the left, while `2 + v` raises
`TypeError`. -/
theorem C4_amended_witness :
    (∃ p : List Node × ℕ, pyMul oneLeafG (.num (.int 2)) (.node 0) = .ok (p.1, .node p.2) ∧
       dataOf p.1 p.2 = (PyNum.int 2).toQ * dataOf oneLeafG 0) ∧
    pyAdd oneLeafG (.num (.int 2)) (.node 0) = .error .typeError := by
  have h := C4_amended (g := oneLeafG) (i := 0) (by decide) (.int 2)
  exact ⟨h.1, h.2.2.2⟩

/-- C5 counterexample: dividing a node by a node whose value is exactly
zero does fail with an error: `__truediv__` evaluates `other ** -1`, and
Python raises `ZeroDivisionError` on `0.0 ** -1`; no non-finite value is
produced and no node is created. -/
theorem C5_counterexample :
    truediv rpow0 zeroDivG 0 (.node 1) = .error .zeroDivisionError := by
  norm_num [truediv, pow, pypow, zeroDivG, dataOf, getNode, PyNum.toQ]

/-- C5 amended: for every graph, dividing any node by a node whose value
is exactly zero raises `ZeroDivisionError` from the forward power
computation `0.0 ** -1`; the forward evaluation does not complete and no
backward contribution is ever produced. -/
theorem C5_amended {rpow : ℚ → ℚ → ℚ} {g : List Node} {i j : ℕ}
    (hj : dataOf g j = 0) :
    truediv rpow g i (.node j) = .error .zeroDivisionError := by
  norm_num [truediv, pow, pypow, hj, PyNum.toQ]

/-- C5 witness: dividing the zero leaf by itself raises
`ZeroDivisionError`. -/
theorem C5_amended_witness :
    dataOf zeroLeafG 0 = 0 ∧
    truediv rpow0 zeroLeafG 0 (.node 0) = .error .zeroDivisionError :=
  ⟨rfl, C5_amended rfl⟩

/-- C6 counterexample: `power(create_leaf(0.0), -1)` has a perfectly
scalar exponent, yet it does not return a node: the forward computation
`0.0 ** -1` raises `ZeroDivisionError`, refuting the unconditional
"for a real scalar exponent p it returns a node" part of the claim. -/
theorem C6_counterexample :
    pow rpow0 zeroLeafG 0 (.num (.int (-1))) = .error .zeroDivisionError := by
  norm_num [pow, pypow, zeroLeafG, dataOf, getNode, PyNum.toQ]

/-- C6 amended: the power builder fails with `UnsupportedExponentType`
if and only if the exponent argument is not a real scalar (and then no
forward evaluation runs and no node is created); for a real scalar
exponent `p` -- provided the base is not exactly zero with `p` negative,
where `ZeroDivisionError` is raised instead -- it returns a node with
forward value `a.value ^ p` whose backward rule, where defined, adds
`p * a.value ^ (p - 1) * g` to the operand's gradient. -/
theorem C6_amended {rpow : ℚ → ℚ → ℚ} {g : List Node} {i : ℕ} :
    (∀ other : PyObj,
       pow rpow g i other = .error .unsupportedExponentType ↔
         ∀ c, other ≠ .num c) ∧
    (∀ c : PyNum, ¬(dataOf g i = 0 ∧ c.toQ < 0) →
       pow rpow g i (.num c) =
         .ok (mkValue g (qpow rpow (dataOf g i) c.toQ) [i] "**" (.powR i c.toQ))) ∧
    (∀ x : ℚ, ∀ n : ℤ, qpow rpow x ((n : ℤ) : ℚ) = x ^ n) ∧
    (∀ p : ℚ, ∀ g2 k2, ruleOf g2 k2 = .powR i p →
       ¬(dataOf g2 i = 0 ∧ p - 1 < 0) →
       applyRule rpow g2 k2 =
         .ok (addGrad g2 i (p * qpow rpow (dataOf g2 i) (p - 1) * gradOf g2 k2))) ∧
    (∀ x : ℚ, ∀ n : ℤ, qpow rpow x ((n : ℚ) - 1) = x ^ (n - 1)) := by
  refine ⟨?_, ?_, qpow_intCast rpow, ?_, ?_⟩
  · intro other
    cases other with
    | node j => simp [pow]
    | num c =>
        simp only [pow, pypow]
        constructor
        · intro h
          by_cases hc : dataOf g i = 0 ∧ c.toQ < 0 <;> simp [hc] at h
        · intro h
          exact absurd rfl (h c)
    | other => simp [pow]
  · intro c hc
    simp [pow, pypow, hc]
  · intro p g2 k2 hrule hdef
    simp only [applyRule, hrule, pypow]
    rw [if_neg hdef]
  · intro x n
    have : ((n : ℚ) - 1) = (((n - 1 : ℤ)) : ℚ) := by push_cast; ring
    rw [this, qpow_intCast]

/-- C6 witness: concrete instances -- a node exponent is rejected with
`UnsupportedExponentType`, and `leaf(2) ** 2` builds a node carrying
value 4 and the power rule. -/
theorem C6_amended_witness :
    (pow rpow0 twoLeafG 1 (.node 0) = .error .unsupportedExponentType ↔
       ∀ c, PyObj.node 0 ≠ .num c) ∧
    pow rpow0 twoLeafG 1 (.num (.int 2)) =
      .ok (mkValue twoLeafG (qpow rpow0 (dataOf twoLeafG 1) (PyNum.int 2).toQ)
        [1] "**" (.powR 1 (PyNum.int 2).toQ)) := by
  have h := @C6_amended rpow0 twoLeafG 1
  refine ⟨h.1 (.node 0), h.2.1 (.int 2) ?_⟩
  norm_num [twoLeafG, dataOf, getNode]

/-- C7: the derived builders are exactly the stated compositions of
primitives: `negate(a)` is `multiply(a, constant(-1))` with forward value
`-a.value`; `subtract(a,b)` is `add(a, negate(b))` with forward value
`a.value - b.value`; `divide(a,b)` is `multiply(a, power(b, -1))` with
forward value `a.value / b.value` when `b.value ≠ 0`. -/
theorem C7_derived_builders {g : List Node} {i j : ℕ}
    (hi : i < g.length) (hj : j < g.length) :
    (neg g i = negate_spec g i ∧
       dataOf (neg g i).1 (neg g i).2 = -(dataOf g i)) ∧
    (sub g i (.node j) = .ok (subtract_spec g i j) ∧
       dataOf (subtract_spec g i j).1 (subtract_spec g i j).2 =
         dataOf g i - dataOf g j) ∧
    (∀ rpow, truediv rpow g i (.node j) = divide_spec rpow g i j) ∧
    (∀ rpow, dataOf g j ≠ 0 → ∃ p : List Node × ℕ,
       divide_spec rpow g i j = .ok p ∧
       dataOf p.1 p.2 = dataOf g i / dataOf g j) := by
  have hnegval : ∀ k, k < g.length →
      dataOf (neg g k).1 (neg g k).2 = -(dataOf g k) := by
    intro k hk
    simp only [neg, mulNumV, mulVV, mkLeaf]
    rw [dataOf_mkValue_self, dataOf_mkValue_lt _ _ _ _ hk, dataOf_mkValue_self]
    ring
  refine ⟨⟨rfl, hnegval i hi⟩, ⟨rfl, ?_⟩, fun _ => rfl, ?_⟩
  · have hP1 : dataOf (negate_spec g j).1 i = dataOf g i := by
      simp only [negate_spec, mulNumV, mulVV, mkLeaf]
      rw [dataOf_mkValue_lt _ _ _ _ (by rw [length_mkValue]; omega),
        dataOf_mkValue_lt _ _ _ _ hi]
    have hP2 : dataOf (negate_spec g j).1 (negate_spec g j).2 = -(dataOf g j) :=
      hnegval j hj
    simp only [subtract_spec, addVV]
    rw [dataOf_mkValue_self, hP1, hP2]
    ring
  · intro rpow hj0
    have hpow : pow rpow g j (.num (.int (-1))) =
        .ok (mkValue g (qpow rpow (dataOf g j) (PyNum.int (-1)).toQ)
          [j] "**" (.powR j (PyNum.int (-1)).toQ)) := by
      simp [pow, pypow, hj0]
    refine ⟨mulVV (mkValue g (qpow rpow (dataOf g j) (PyNum.int (-1)).toQ)
        [j] "**" (.powR j (PyNum.int (-1)).toQ)).1 i
        (mkValue g (qpow rpow (dataOf g j) (PyNum.int (-1)).toQ)
        [j] "**" (.powR j (PyNum.int (-1)).toQ)).2, ?_, ?_⟩
    · simp [divide_spec, hpow]
    · simp only [mulVV]
      rw [dataOf_mkValue_self, dataOf_mkValue_lt _ _ _ _ hi, dataOf_mkValue_self]
      have hq : qpow rpow (dataOf g j) ((PyNum.int (-1)).toQ) =
          (dataOf g j) ^ (-1 : ℤ) := qpow_intCast rpow _ _
      rw [hq, zpow_neg_one, div_eq_mul_inv]

/-- C7 witness: on two leaves holding 6 and 2, `negate`, `subtract` and
`divide` produce forward values `-6`, `4` and `3`. -/
theorem C7_derived_builders_witness :
    dataOf (neg twoLeafG 0).1 (neg twoLeafG 0).2 = -6 ∧
    dataOf (subtract_spec twoLeafG 0 1).1 (subtract_spec twoLeafG 0 1).2 = 4 ∧
    ∃ p : List Node × ℕ, divide_spec rpow0 twoLeafG 0 1 = .ok p ∧
      dataOf p.1 p.2 = 3 := by
  have h := C7_derived_builders (g := twoLeafG) (i := 0) (j := 1)
    (by decide) (by decide)
  have h6 : dataOf twoLeafG 0 = 6 := rfl
  have h2 : dataOf twoLeafG 1 = 2 := rfl
  refine ⟨?_, ?_, ?_⟩
  · rw [h.1.2, h6]
  · rw [h.2.1.2, h6, h2]
    norm_num
  · obtain ⟨p, hp, hv⟩ := h.2.2.2 rpow0 (by rw [h2]; norm_num)
    refine ⟨p, hp, ?_⟩
    rw [hv, h6, h2]
    norm_num

/-- C8: `tanh(a)` returns a node whose forward value is
`(e^{2x} - 1) / (e^{2x} + 1)` (for the exponential `expF`, whose values
keep the denominator nonzero), whose backward rule adds
`(1 - t^2) * g` to the operand's gradient where `t` is the captured
forward result; at `x = 0` (where `exp 0 = 1`) the forward value is `0`
and the local gradient factor `1 - t^2` is `1`. -/
theorem C8_tanh {expF : ℚ → ℚ} {g : List Node} {i : ℕ}
    (hden : expF (2 * dataOf g i) + 1 ≠ 0) :
    ∃ t0, t0 = (expF (2 * dataOf g i) - 1) / (expF (2 * dataOf g i) + 1) ∧
      tanh expF g i = .ok (mkValue g t0 [i] "tanh" (.tanhR i t0)) ∧
      (∀ rpow g2 k2, ruleOf g2 k2 = .tanhR i t0 →
        applyRule rpow g2 k2 =
          .ok (addGrad g2 i ((1 - t0 ^ 2) * gradOf g2 k2))) ∧
      (dataOf g i = 0 → expF 0 = 1 → t0 = 0 ∧ 1 - t0 ^ 2 = 1) := by
  refine ⟨(expF (2 * dataOf g i) - 1) / (expF (2 * dataOf g i) + 1), rfl,
    ?_, ?_, ?_⟩
  · simp [tanh, hden]
  · intro rpow g2 k2 hrule
    simp [applyRule, hrule]
  · intro h0 he
    rw [h0] at *
    norm_num [he]

/-- C8 witness: at the leaf holding 0 with an exponential stand-in
satisfying `exp 0 = 1`, the forward value is 0 and the factor is 1. -/
theorem C8_tanh_witness :
    ∃ t0, t0 = (exp1 (2 * dataOf zeroLeafG 0) - 1) / (exp1 (2 * dataOf zeroLeafG 0) + 1) ∧
      tanh exp1 zeroLeafG 0 = .ok (mkValue zeroLeafG t0 [0] "tanh" (.tanhR 0 t0)) ∧
      (∀ rpow g2 k2, ruleOf g2 k2 = .tanhR 0 t0 →
        applyRule rpow g2 k2 =
          .ok (addGrad g2 0 ((1 - t0 ^ 2) * gradOf g2 k2))) ∧
      (dataOf zeroLeafG 0 = 0 → exp1 0 = 1 → t0 = 0 ∧ 1 - t0 ^ 2 = 1) :=
  C8_tanh (by norm_num [exp1, zeroLeafG, dataOf, getNode])

/-- C9: a completed backward pass mutates only gradient accumulators:
the graph keeps its length and every node keeps its `data`, `_prev`,
`_op` and closure; moreover the gradient of every node not reachable
from the terminal through operand edges is unchanged (for graphs whose
closures write only to their recorded operands, as every API-built graph
does). -/
theorem C9_backward_frame {rpow : ℚ → ℚ → ℚ} {g : List Node} {t : ℕ}
    {g' : List Node} (hwf : WF g) (hok : backward rpow g t = .ok g') :
    g'.length = g.length ∧
    (∀ i, dataOf g' i = dataOf g i ∧ prevOf g' i = prevOf g i ∧
      opOf g' i = opOf g i ∧ ruleOf g' i = ruleOf g i) ∧
    (∀ i, ¬ Reach g t i → gradOf g' i = gradOf g i) := by
  have hskel : Skel g g' := (skel_setGrad g t 1).trans (applyAll_skel hok)
  refine ⟨hskel.1, hskel.2, ?_⟩
  intro i hni
  have hit : i ≠ t := fun h => hni (h ▸ Relation.ReflTransGen.refl)
  rw [← gradOf_setGrad_ne (g := g) (j := t) 1 hit]
  apply applyAll_grad_of_not_target hok
  intro v hv hmem
  have hreach : Reach g t v := buildTopo_sound (List.mem_reverse.mp hv)
  rw [((skel_setGrad g t 1).2 v).2.2.2] at hmem
  by_cases hvlen : v < g.length
  · exact hni (Relation.ReflTransGen.tail hreach (hwf v hvlen i hmem))
  · rw [ruleOf, getNode_default (Nat.le_of_not_lt hvlen)] at hmem
    simp [defaultNode, ruleTargets] at hmem

/-- C9 witness: on the one-leaf graph with a stale gradient, the
completed pass keeps the data of node 0 and the (default) gradient of
the out-of-graph index 3. -/
theorem C9_backward_frame_witness :
    dataOf [⟨5, 1, [], "", .nop⟩] 0 = dataOf staleLeafG 0 ∧
    gradOf [⟨5, 1, [], "", .nop⟩] 3 = gradOf staleLeafG 3 := by
  have hok : backward rpow0 staleLeafG 0 = .ok [⟨5, 1, [], "", .nop⟩] := by
    norm_num [backward, runOrder, buildTopo, totalFuel, unvisWeight, dfsRun,
      applyAll, applyRule, setGrad, addGrad, getNode, gradOf, dataOf, prevOf,
      ruleOf, opOf, staleLeafG, rpow0]
  have h := C9_backward_frame (by decide) hok
  refine ⟨(h.2.1 0).1, h.2.2 3 ?_⟩
  intro hr
  have h3 : (3 : ℕ) = 0 := reach_leaf_eq (g := staleLeafG) rfl hr
  omega

/-- C10: `backward` overwrites the terminal's gradient with 1.0 (it does
not accumulate): whenever the terminal is not an operand of any node of
its own reachable subgraph, a completed pass leaves the terminal's
gradient exactly 1, regardless of its prior value; and on a freshly
created leaf the pass terminates successfully, sets that gradient to 1.0
and changes nothing else. -/
theorem C10_terminal_overwrite {rpow : ℚ → ℚ → ℚ} {g : List Node} {t : ℕ}
    (hwf : WF g) (ht : t < g.length)
    (hnop : ∀ v, Reach g t v → t ∉ prevOf g v) :
    (∀ g', backward rpow g t = .ok g' → gradOf g' t = 1) ∧
    (∀ c : ℚ, backward rpow [⟨c, 0, [], "", .nop⟩] 0 = .ok [⟨c, 1, [], "", .nop⟩]) := by
  constructor
  · intro g' hok
    have h1 : gradOf g' t = gradOf (setGrad g t 1) t := by
      apply applyAll_grad_of_not_target hok
      intro v hv hmem
      have hreach : Reach g t v := buildTopo_sound (List.mem_reverse.mp hv)
      rw [((skel_setGrad g t 1).2 v).2.2.2] at hmem
      by_cases hvlen : v < g.length
      · exact hnop v hreach (hwf v hvlen t hmem)
      · rw [ruleOf, getNode_default (Nat.le_of_not_lt hvlen)] at hmem
        simp [defaultNode, ruleTargets] at hmem
    rw [h1, gradOf_setGrad_self _ ht]
  · intro c
    norm_num [backward, runOrder, buildTopo, totalFuel, unvisWeight, dfsRun,
      applyAll, applyRule, setGrad, addGrad, getNode, gradOf, dataOf, prevOf,
      ruleOf, opOf, Finset.range_one, Finset.filter_singleton, List.set]

/-- C10 witness: on the freshly created leaf holding 5, `backward`
terminates, sets the gradient to 1.0 and changes nothing else. -/
theorem C10_terminal_overwrite_witness :
    backward rpow0 freshLeafG 0 = .ok [⟨5, 1, [], "", .nop⟩] := by
  have h := @C10_terminal_overwrite rpow0 freshLeafG 0
    (by decide) (by decide) ?_
  · exact h.2 5
  · intro v hr
    have hv0 : v = 0 := reach_leaf_eq (g := freshLeafG) rfl hr
    subst hv0
    simp [prevOf, getNode, freshLeafG]

end Micrograd
